import Mathlib

/-!
Verification of bufdb (an embeddable typed KV database layered over a sorted
KV engine) against its specification.  The Rust sources are shallowly
embedded: byte buffers become `List Nat` (each element a byte value),
machine integers become `Nat`/`Int` with explicit `% 2^w` where overflow can
occur, and fallible operations return `Option`.
-/

namespace Bufdb

/-! ### Suffix codec (src/crates/bufdb-level/src/suffix.rs)

`BufferEntry` values are modelled by the list of bytes of their logical
slice.  `write_suffix` writes the little-endian non-zero bytes of
`value - SIGN_VALUE` via `while val > 0 { output.write_u8(val as u8); val >>= 8 }`;
that loop produces exactly the base-256 digits of the value, modelled by
`leBytes`. -/

/-- SIGN_VALUE = u8::MAX - 8 = 247. -/
def SIGN_VALUE : Nat := 247

/-- Little-endian bytes of `w` as emitted by the Rust loop
`while val > 0 { write_u8(val as u8); val >>= 8 }`: the base-256 digits of
`w`, least significant first, empty for `w = 0`. -/
def leBytes (w : Nat) : List Nat :=
  if h : w = 0 then [] else w % 256 :: leBytes (w / 256)
decreasing_by exact Nat.div_lt_self (Nat.pos_of_ne_zero h) (by norm_num)

/-- Byte sequence appended by `write_suffix(output, value)`: one byte for
`value <= SIGN_VALUE`, otherwise the little-endian payload of
`value - SIGN_VALUE` followed by the tag byte `SIGN_VALUE + n` (a `u8`
addition, hence the `% 256`). -/
def write_suffix (value : Nat) : List Nat :=
  if value ≤ SIGN_VALUE then [value]
  else leBytes (value - SIGN_VALUE) ++ [(SIGN_VALUE + (leBytes (value - SIGN_VALUE)).length) % 256]

/-- `append_suffix(entry, value)` appends the encoded suffix at the tail. -/
def append_suffix (entry : List Nat) (value : Nat) : List Nat :=
  entry ++ write_suffix value

/-- `size_of_suffix(entry)`: 0 for an empty entry, else decided by the last
byte `n`: 1 if `n <= SIGN_VALUE`, otherwise `n - SIGN_VALUE + 1`. -/
def size_of_suffix (entry : List Nat) : Nat :=
  match entry.getLast? with
  | none => 0
  | some n => if n ≤ SIGN_VALUE then 1 else n - SIGN_VALUE + 1

/-- `reset_suffix(entry, value)` rewinds the write position by
`size_of_suffix` and writes a fresh suffix there. -/
def reset_suffix (entry : List Nat) (value : Nat) : List Nat :=
  entry.take (entry.length - size_of_suffix entry) ++ write_suffix value

/-- `unwrap_suffix(buf)` iterates the bytes from the tail: the first is the
tag; a tag `<= SIGN_VALUE` is the value itself, otherwise `tag - SIGN_VALUE`
further bytes are folded most-significant-first by `val = (val << 8) + byte`
in `u32` arithmetic (hence `% 2^32`) and the value is `val + SIGN_VALUE`.
Returns the remaining prefix (`buf.left(size - len)`) with the value;
`none` models the `OutOfBounds` error. -/
def unwrap_suffix (buf : List Nat) : Option (List Nat × Nat) :=
  match buf.reverse with
  | [] => none
  | sign :: rest =>
    if sign ≤ SIGN_VALUE then
      some (buf.take (buf.length - 1), sign)
    else if rest.length < sign - SIGN_VALUE then none
    else
      some (buf.take (buf.length - (sign - SIGN_VALUE + 1)),
        ((rest.take (sign - SIGN_VALUE)).foldl (fun a b => (a * 256 + b) % 2 ^ 32) 0
          + SIGN_VALUE) % 2 ^ 32)

/-! ### Packed signed integers (src/crates/bufdb-storage/src/packed_int.rs)

`PackedI32`/`PackedI64` share the `pack_write!`/`pack_read!` macros; the
emitted bytes depend only on the value, so a single `pack_write` models both.
`pack_read` is parameterised by the bit width `w` of the Rust integer type,
with release-mode wrap-around arithmetic modelled by `wrapI`. -/

/-- Two's-complement wrap-around of an integer to `w` bits (Rust release-mode
overflow semantics for `iN` arithmetic). -/
def wrapI (w : Nat) (x : Int) : Int := (x + 2 ^ (w - 1)) % 2 ^ w - 2 ^ (w - 1)

/-- Reinterpret a byte as an `i8` (`buf[0] as i8`). -/
def asI8 (b : Nat) : Int := if b < 128 then (b : Int) else (b : Int) - 256

/-- `pack_write!`: values in `[-119, 119]` are a single byte (`v as u8`);
otherwise the little-endian non-zero bytes of `|v| - 119` follow a tag byte
`119 + n` (positive) or `-119 - n` (negative), `n` being the payload
length.  Tag casts to `u8` are `% 256`. -/
def pack_write (v : Int) : List Nat :=
  if v < -119 then
    ((-119 - ((leBytes (-(v + 119)).toNat).length : Int)) % 256).toNat
      :: leBytes (-(v + 119)).toNat
  else if v > 119 then
    ((119 + (leBytes (v - 119).toNat).length) % 256) :: leBytes (v - 119).toNat
  else [(v % 256).toNat]

/-- Step of the decode loop `val = (val << 8) + buf[i]` at bit width `w`. -/
def readStep (w : Nat) (a : Int) (b : Nat) : Int := wrapI w (a * 256 + (b : Int))

/-- `pack_read!` at bit width `w`: the tag is `buf[0] as i8`; tags in
`[-119, 119]` are the value; otherwise `|tag| - 119` payload bytes are folded
most-significant-first by `val = (val << 8) + byte` in `iw` arithmetic and
the value is `±val ∓ 119` (wrapped).  `none` models the out-of-bounds panic
on a short buffer. -/
def pack_read (w : Nat) : List Nat → Option (Int × Nat)
  | [] => none
  | b0 :: rest =>
    if asI8 b0 < -119 then
      if rest.length < (-(asI8 b0 + 119)).toNat then none
      else some (wrapI w (-((rest.take (-(asI8 b0 + 119)).toNat).reverse.foldl
          (readStep w) 0) - 119), (-(asI8 b0 + 119)).toNat + 1)
    else if asI8 b0 > 119 then
      if rest.length < (asI8 b0 - 119).toNat then none
      else some (wrapI w ((rest.take (asI8 b0 - 119).toNat).reverse.foldl
          (readStep w) 0 + 119), (asI8 b0 - 119).toNat + 1)
    else some (asI8 b0, 1)

/-! ### Null-aware string codec (src/crates/bufdb-storage/src/io.rs)

A string is modelled by the list of its UTF-8 bytes.  A Rust `String` is
valid UTF-8, so it never contains the byte `0xFF`, and
`String::from_utf8` applied to bytes that came from a string succeeds and
is modelled as the identity. -/

/-- Null strings are encoded as the sentinel byte `0xFF`. -/
def UTF_NULL : Nat := 255

/-- `BufferOutput::write_str`: a present string is its UTF-8 bytes followed
by a single `0x00` terminator; a null string is the single byte `0xFF`. -/
def write_str (s : Option (List Nat)) : List Nat :=
  match s with
  | some s => s ++ [0]
  | none => [UTF_NULL]

/-- `buffer.iter().position(|&b| b == 0u8)`: index of the first `0x00`. -/
def strTerm : List Nat → Option Nat
  | [] => none
  | b :: rest => if b = 0 then some 0 else (strTerm rest).map (· + 1)

/-- `BufferInput::read_string` on buffer `data` at position `pos`: reading
past the end is `UnexpectedEof`; a `0xFF` byte yields `None` advancing by 1;
otherwise the bytes up to the first `0x00` form the string and the position
advances past the terminator; a missing terminator is `InvalidData`.
Failures are modelled by `none`; success returns the decoded optional
string and the new position. -/
def read_string (data : List Nat) (pos : Nat) : Option (Option (List Nat) × Nat) :=
  match data[pos]? with
  | none => none
  | some n =>
    if n = UTF_NULL then some (none, pos + 1)
    else
      match strTerm (data.drop pos) with
      | some p => some (some ((data.drop pos).take p), pos + p + 1)
      | none => none

/-! ### Cache pool (src/crates/bufdb-storage/src/cache.rs)

A pool is the list of its entries; `Poolable` handles are represented by
their name (an opaque identifier, modelled as `Nat`) and their
`last_access` timestamp in milliseconds.  Durations in the config are their
millisecond values; `Duration::is_zero` is `= 0`. -/

structure PoolItem where
  name : Nat
  last : Int
deriving DecidableEq

structure CacheCfg where
  maxCache : Option Nat
  minLive : Option Nat
  maxIdle : Option Nat
deriving DecidableEq

/-- Criterion 1 of `CachePool::cleanup`: when `min_live_time` is set and
nonzero, only items idle strictly longer than it remain under
consideration (`items.retain(|x| cur_time - x.last_access() > min_live)`). -/
def liveItems (pool : List PoolItem) (minLive : Option Nat) (now : Int) : List PoolItem :=
  match minLive with
  | some t =>
    if t ≠ 0 then pool.filter (fun x => decide ((t : Int) < now - x.last)) else pool
  | none => pool

/-- Criterion 2 of `cleanup`: the names removed from the pool because the
considered item is idle strictly longer than a set, nonzero
`max_idle_time`. -/
def idleNames (items1 : List PoolItem) (maxIdle : Option Nat) (now : Int) : List Nat :=
  match maxIdle with
  | some u =>
    if u ≠ 0 then (items1.filter (fun x => decide ((u : Int) < now - x.last))).map (·.name)
    else []
  | none => []

/-- The considered items surviving criterion 2. -/
def idleKeep (items1 : List PoolItem) (maxIdle : Option Nat) (now : Int) : List PoolItem :=
  match maxIdle with
  | some u =>
    if u ≠ 0 then items1.filter (fun x => ! decide ((u : Int) < now - x.last)) else items1
  | none => items1

/-- Criterion 3 of `cleanup`: the surviving considered items are sorted by
`last_access` ascending and the names of the oldest `len - max_cache` are
removed from the pool. -/
def oldNames (items2 : List PoolItem) (m : Nat) : List Nat :=
  ((items2.mergeSort (fun a b => decide (a.last ≤ b.last))).take
    (items2.length - m)).map (·.name)

/-- `CachePool::cleanup`: on a snapshot of the pool the three criteria
apply in the order min_live → max_idle → max_cache, each phase returning
early when no items remain under consideration. -/
def cleanup (pool : List PoolItem) (cfg : CacheCfg) (now : Int) : List PoolItem :=
  if pool.isEmpty then pool
  else
    if (liveItems pool cfg.minLive now).isEmpty then pool
    else
      let pool2 : List PoolItem := pool.filter
        (fun y => ! decide (y.name ∈ idleNames (liveItems pool cfg.minLive now) cfg.maxIdle now))
      if (idleKeep (liveItems pool cfg.minLive now) cfg.maxIdle now).isEmpty then pool2
      else
        match cfg.maxCache with
        | some m =>
          if m < (idleKeep (liveItems pool cfg.minLive now) cfg.maxIdle now).length then
            pool2.filter (fun y => ! decide (y.name ∈
              oldNames (idleKeep (liveItems pool cfg.minLive now) cfg.maxIdle now) m))
          else pool2
        | none => pool2

/-! ### Cursor skip (src/crates/bufdb-level/src/cursor.rs)

A live engine iterator is modelled by the list of its remaining entries.
`count` is a `usize`; `count -= 1` wraps modulo `2 ^ 64`, so decrementing 0
yields `2 ^ 64 - 1`.  Both skips are modelled for calls that pass no output
buffers, in which case `IDXCursor::fetch` is a no-op and only the boolean
result is observable. -/

/-- `PKCursor::skip`: take the next entry, decrement, report it when the
counter reaches zero; `none` (false) when the iterator is exhausted
first. -/
def pk_skip (count : Nat) : List (List Nat × List Nat) → Option (List Nat × List Nat)
  | [] => none
  | e :: rest =>
    if (count + (2 ^ 64 - 1)) % 2 ^ 64 = 0 then some e
    else pk_skip ((count + (2 ^ 64 - 1)) % 2 ^ 64) rest

/-- `IDXCursor::s_skip` over the index iterator (entries are decoded
`(user-key, ordinal)` pairs mapping to a primary key), with no output
buffers requested: returns whether an entry was reported. -/
def s_skip (count : Nat) : List ((Nat × Nat) × Nat) → Bool
  | [] => false
  | _ :: rest =>
    if (count + (2 ^ 64 - 1)) % 2 ^ 64 = 0 then true
    else s_skip ((count + (2 ^ 64 - 1)) % 2 ^ 64) rest

/-! ### Schema and instance opening (src/crates/bufdb/src/schema/mod.rs,
src/crates/bufdb/src/instance.rs)

Names are opaque identifiers modelled as `Nat`.  `TableImpl::new` and
`SchemaImpl::new` open engine databases on disk; the engine is external and
modelled as succeeding.  A `TableImpl` handle is represented by its
`TableConfig`; the pools of `CachePool` are association lists. -/

structure TableConfig where
  readonly : Bool
  temporary : Bool
deriving DecidableEq

structure SchemaConfig where
  readonly : Bool
  temporary : Bool
  maxCache : Option Nat
  minLive : Option Nat
  maxIdle : Option Nat
deriving DecidableEq

inductive ErrKind where
  | configuration
  | notFound
  | createDuplicate
deriving DecidableEq

/-- State of a `SchemaImpl`: its config, the set of table names present in
the `SYS_META` store, and the `tables` cache pool. -/
structure SchemaSt where
  config : SchemaConfig
  meta : List Nat
  tables : List (Nat × TableConfig)
deriving DecidableEq

/-- `CachePool::get` by name (the pool map has at most one entry per name). -/
def tablesGet (tables : List (Nat × TableConfig)) (n : Nat) : Option TableConfig :=
  (tables.find? (fun e => e.1 == n)).map (·.2)

/-- `SchemaImpl::open`: a cached handle is returned after a config-mismatch
check; otherwise a new handle is created and inserted into the cache only
when the schema config has `max_cache` set. -/
def schema_open (st : SchemaSt) (n : Nat) (c : TableConfig) :
    Except ErrKind (TableConfig × SchemaSt) :=
  match tablesGet st.tables n with
  | some tc =>
    if tc.readonly ≠ c.readonly ∨ tc.temporary ≠ c.temporary then .error .configuration
    else .ok (tc, st)
  | none =>
    if st.config.maxCache.isSome then .ok (c, { st with tables := (n, c) :: st.tables })
    else .ok (c, st)

/-- `SchemaImpl::create_kv_table`: rejects `temporary ∧ readonly` with
`Configuration`, a duplicate meta entry with `CreateDuplicate`; otherwise
opens the table and records it in meta. -/
def create_kv_table (st : SchemaSt) (n : Nat) (c : TableConfig) :
    Except ErrKind (TableConfig × SchemaSt) :=
  if c.temporary && c.readonly then .error .configuration
  else if n ∈ st.meta then .error .createDuplicate
  else
    match schema_open st n c with
    | .error e => .error e
    | .ok (tc, st2) => .ok (tc, { st2 with meta := n :: st2.meta })

/-- `SchemaImpl::open_kv_table`: rejects `temporary ∧ readonly` with
`Configuration`, a missing meta entry with `NotFound`; otherwise opens. -/
def open_kv_table (st : SchemaSt) (n : Nat) (c : TableConfig) :
    Except ErrKind (TableConfig × SchemaSt) :=
  if c.temporary && c.readonly then .error .configuration
  else if n ∉ st.meta then .error .notFound
  else schema_open st n c

/-- State of an `InstImpl`: its schema cache pool (handles represented by
their configs). -/
structure InstSt where
  schemas : List (Nat × SchemaConfig)
deriving DecidableEq

/-- `InstImpl::open`: cached schema handles are config-checked, otherwise a
new schema is constructed and cached. -/
def instance_open (st : InstSt) (n : Nat) (c : SchemaConfig) :
    Except ErrKind (SchemaConfig × InstSt) :=
  match (st.schemas.find? (fun e => e.1 == n)).map (·.2) with
  | some sc =>
    if sc.readonly ≠ c.readonly ∨ sc.temporary ≠ c.temporary then .error .configuration
    else .ok (sc, st)
  | none => .ok (c, { st with schemas := (n, c) :: st.schemas })

/-- `Instance::open_schema`: rejects `temporary ∧ readonly` with
`Configuration` before touching the instance. -/
def open_schema (st : InstSt) (n : Nat) (c : SchemaConfig) :
    Except ErrKind (SchemaConfig × InstSt) :=
  if c.temporary && c.readonly then .error .configuration
  else instance_open st n c

/-! ### Secondary-index maintenance (src/crates/bufdb-level/src/database.rs,
src/crates/bufdb-level/src/comparator.rs)

Index keys of a non-unique index are suffix-encoded byte strings; by the
round-trip theorems for the suffix codec they are faithfully represented by
their decoded `(user-key, ordinal)` pair, which is exactly what
`IDXComparator::compare` operates on after `unwrap_suffix`.  User keys and
values are opaque; the user comparator is modelled as the natural order on
`Nat`.  The leveldb store is its sorted entry list; `seek(t)` followed by
`next()` yields the first entry at or after `t` in comparator order. -/

/-- Strict order induced by `IDXComparator::compare`: user-key prefixes
compare first; on a tie the decoded ordinals compare in reverse, so a
larger ordinal sorts first. -/
def idxLt (a b : Nat × Nat) : Prop := a.1 < b.1 ∨ (a.1 = b.1 ∧ b.2 < a.2)

instance idxLt.decRel : DecidableRel idxLt := fun a b => by
  unfold idxLt
  exact inferInstance

/-- leveldb `put` on a store sorted by `idxLt`: replaces an equal key,
otherwise inserts at the ordered position. -/
def idxInsert : List ((Nat × Nat) × Nat) → (Nat × Nat) → Nat → List ((Nat × Nat) × Nat)
  | [], k, d => [(k, d)]
  | (k0, d0) :: rest, k, d =>
    if k = k0 then (k, d) :: rest
    else if idxLt k k0 then (k, d) :: (k0, d0) :: rest
    else (k0, d0) :: idxInsert rest k d

/-- leveldb `seek(t)` + first `next()`: the first stored entry at or after
`t` in `idxLt` order. -/
def idxSeekFirst (store : List ((Nat × Nat) × Nat)) (t : Nat × Nat) :
    Option ((Nat × Nat) × Nat) :=
  store.find? (fun e => ! decide (idxLt e.1 t))

/-- The ordinal-allocation probe of `IndexListener::put_idx`: seek to
`append_suffix(sk, 0)` and examine the first existing key; if its stripped
prefix equals `sk` the next ordinal is `n + 1` (a `u32` addition), else 1;
an exhausted iterator also yields 1. -/
def probe_ord (store : List ((Nat × Nat) × Nat)) (sk : Nat) : Nat :=
  match idxSeekFirst store (sk, 0) with
  | some (nk, _) => if nk.1 = sk then (nk.2 + 1) % 2 ^ 32 else 1
  | none => 1

/-- `IndexListener::put_idx`: if the key creator yields `sk`, write
`index[reset_suffix(append_suffix(sk, 0), probe)] = k`. -/
def put_idx (store : List ((Nat × Nat) × Nat)) (creator : Nat → Nat → Option Nat)
    (k v : Nat) : List ((Nat × Nat) × Nat) :=
  match creator k v with
  | none => store
  | some sk => idxInsert store (sk, probe_ord store sk) k

/-- Scan loop of `IndexListener::delete_idx` over the entries from the seek
position on: stop when the ordinal fails to keep strictly decreasing from
`u32::MAX` or the prefix changes; return the index key whose stored data
equals the primary key `k`. -/
def delScan : List ((Nat × Nat) × Nat) → Nat → Nat → Nat → Option (Nat × Nat)
  | [], _, _, _ => none
  | (nk, nd) :: rest, sk, k, ord =>
    if ord ≤ nk.2 ∨ nk.1 ≠ sk then none
    else if nd = k then some nk
    else delScan rest sk k nk.2

/-- `IndexListener::delete_idx`: if the creator yields `sk`, iterate from
`append_suffix(sk, 0)` and delete the matching entry when found. -/
def delete_idx (store : List ((Nat × Nat) × Nat)) (creator : Nat → Nat → Option Nat)
    (k v : Nat) : List ((Nat × Nat) × Nat) :=
  match creator k v with
  | none => store
  | some sk =>
    match delScan (store.dropWhile (fun e => decide (idxLt e.1 (sk, 0)))) sk k
        (2 ^ 32 - 1) with
    | some nk => store.filter (fun e => ! decide (e.1 = nk))
    | none => store

/-- Primary-store association list lookup (`DBImpl::get`). -/
def pLookup : List (Nat × Nat) → Nat → Option Nat
  | [], _ => none
  | (k0, v0) :: rest, k => if k = k0 then some v0 else pLookup rest k

/-- Primary-store sorted insert (`DBImpl::put`). -/
def pInsert : List (Nat × Nat) → Nat → Nat → List (Nat × Nat)
  | [], k, v => [(k, v)]
  | (k0, v0) :: rest, k, v =>
    if k = k0 then (k, v) :: rest
    else if k < k0 then (k, v) :: (k0, v0) :: rest
    else (k0, v0) :: pInsert rest k v

/-- A primary database with its registered non-unique index listeners: each
listener is a key creator together with its index store. -/
structure DBState where
  primary : List (Nat × Nat)
  listeners : List ((Nat → Nat → Option Nat) × List ((Nat × Nat) × Nat))

/-- `PrimaryDatabase::put`: read the prior value; if present and different,
fan out `listener.delete`; engine put; fan out `listener.put`.  When the
prior value equals the new one the delete fan-out is skipped but the put
fan-out still runs. -/
def prim_put (st : DBState) (k v : Nat) : DBState :=
  let ls :=
    if st.listeners.isEmpty then st.listeners
    else
      match pLookup st.primary k with
      | some old =>
        if v ≠ old then st.listeners.map (fun l => (l.1, delete_idx l.2 l.1 k old))
        else st.listeners
      | none => st.listeners
  ⟨pInsert st.primary k v,
    if ls.isEmpty then ls else ls.map (fun l => (l.1, put_idx l.2 l.1 k v))⟩

/-- `PrimaryDatabase::delete`: with listeners, a present record fans out
`listener.delete` before the engine delete; an absent key is a no-op. -/
def prim_delete (st : DBState) (k : Nat) : DBState :=
  if st.listeners.isEmpty then
    ⟨st.primary.filter (fun e => ! decide (e.1 = k)), st.listeners⟩
  else
    match pLookup st.primary k with
    | some v =>
      ⟨st.primary.filter (fun e => ! decide (e.1 = k)),
        st.listeners.map (fun l => (l.1, delete_idx l.2 l.1 k v))⟩
    | none => st

/-- A key creator that extracts the constant prefix 5 from every record. -/
def constCreator : Nat → Nat → Option Nat := fun _ _ => some 5

/-- A concrete non-unique index store, sorted by `idxLt`: two entries with
prefix 5 (ordinals 2 and 1) and one with prefix 7. -/
def exStore : List ((Nat × Nat) × Nat) := [((5, 2), 100), ((5, 1), 101), ((7, 1), 102)]

end Bufdb

namespace Bufdb

/-! Helper lemmas for the suffix codec. -/

theorem leBytes_eq (w : Nat) :
    leBytes w = if w = 0 then [] else w % 256 :: leBytes (w / 256) := by
  rw [leBytes]
  split <;> rfl

theorem leBytes_zero : leBytes 0 = [] := by rw [leBytes_eq]; simp

theorem leBytes_pos {w : Nat} (h : w ≠ 0) :
    leBytes w = w % 256 :: leBytes (w / 256) := by
  rw [leBytes_eq]; simp [h]

theorem leBytes_ne_nil {w : Nat} (h : w ≠ 0) : leBytes w ≠ [] := by
  rw [leBytes_pos h]; simp

/-- Upper bound: fewer than `k` digits suffice below `256 ^ k`. -/
theorem leBytes_length_le {k w : Nat} (h : w < 256 ^ k) :
    (leBytes w).length ≤ k := by
  induction k generalizing w with
  | zero =>
    simp only [pow_zero, Nat.lt_one_iff] at h
    subst h; simp [leBytes_zero]
  | succ k ih =>
    by_cases hw : w = 0
    · subst hw; simp [leBytes_zero]
    · rw [leBytes_pos hw]
      simp only [List.length_cons, Nat.succ_le_succ_iff]
      exact ih (Nat.div_lt_of_lt_mul (by rw [pow_succ, mul_comm] at h; exact h))

/-- Value bound: `w` lies below `256 ^ (number of digits)`. -/
theorem leBytes_lt {w : Nat} : w < 256 ^ (leBytes w).length := by
  induction w using Nat.strong_induction_on with
  | _ w ih =>
    by_cases hw : w = 0
    · subst hw; simp [leBytes_zero]
    · rw [leBytes_pos hw]
      simp only [List.length_cons]
      have hdiv : w / 256 < 256 ^ (leBytes (w / 256)).length :=
        ih (w / 256) (Nat.div_lt_self (Nat.pos_of_ne_zero hw) (by norm_num))
      calc w < 256 * (w / 256) + 256 := by
              have := Nat.mod_lt w (show 0 < 256 by norm_num)
              omega
        _ ≤ 256 * 256 ^ (leBytes (w / 256)).length := by
              have : w / 256 + 1 ≤ 256 ^ (leBytes (w / 256)).length := hdiv
              nlinarith
        _ = 256 ^ ((leBytes (w / 256)).length + 1) := by ring

/-- Lower bound: a nonzero `w` reaches `256 ^ (digits - 1)`. -/
theorem leBytes_ge {w : Nat} (h : w ≠ 0) : 256 ^ ((leBytes w).length - 1) ≤ w := by
  induction w using Nat.strong_induction_on with
  | _ w ih =>
    rw [leBytes_pos h]
    simp only [List.length_cons, Nat.add_sub_cancel]
    by_cases hd : w / 256 = 0
    · rw [hd, leBytes_zero]
      simpa using Nat.one_le_iff_ne_zero.mpr h
    · have hrec := ih (w / 256) (Nat.div_lt_self (Nat.pos_of_ne_zero h) (by norm_num)) hd
      have hlen : (leBytes (w / 256)).length ≠ 0 := by
        intro hc
        rw [leBytes_pos hd] at hc
        simp at hc
      calc 256 ^ (leBytes (w / 256)).length
          = 256 ^ ((leBytes (w / 256)).length - 1) * 256 := by
            rw [← pow_succ]
            congr 1
            omega
        _ ≤ (w / 256) * 256 := by exact Nat.mul_le_mul_right 256 hrec
        _ ≤ w := by
            have := Nat.div_mul_le_self w 256
            omega

/-- Folding the digits most-significant-first reconstructs the value. -/
theorem leBytes_fold {w : Nat} (hw : w < 2 ^ 32) :
    (leBytes w).reverse.foldl (fun a b => (a * 256 + b) % 2 ^ 32) 0 = w := by
  induction w using Nat.strong_induction_on with
  | _ w ih =>
    by_cases h0 : w = 0
    · subst h0; simp [leBytes_zero]
    · rw [leBytes_pos h0]
      simp only [List.reverse_cons, List.foldl_append, List.foldl_cons, List.foldl_nil]
      have hdlt : w / 256 < w := Nat.div_lt_self (Nat.pos_of_ne_zero h0) (by norm_num)
      rw [ih (w / 256) hdlt (lt_trans hdlt hw)]
      have : w / 256 * 256 + w % 256 = w := by
        have := Nat.div_add_mod w 256
        omega
      rw [this, Nat.mod_eq_of_lt hw]

/-- Digit-count pinpointed by the band `256 ^ k ≤ w < 256 ^ (k + 1)`. -/
theorem leBytes_length_eq {w k : Nat} (h1 : 256 ^ k ≤ w) (h2 : w < 256 ^ (k + 1)) :
    (leBytes w).length = k + 1 := by
  have hub := leBytes_length_le h2
  have hlb : k < (leBytes w).length := by
    have hlt : 256 ^ k < 256 ^ (leBytes w).length := lt_of_le_of_lt h1 leBytes_lt
    exact (Nat.pow_lt_pow_iff_right (by norm_num)).1 hlt
  omega

theorem leBytes_length_pos {w : Nat} (h : w ≠ 0) : 0 < (leBytes w).length :=
  List.length_pos.mpr (leBytes_ne_nil h)

/-- The tag byte does not overflow a `u8` for `u32` inputs. -/
theorem suffix_tag_eq {v : Nat} (_h : ¬ v ≤ SIGN_VALUE) (hv : v < 2 ^ 32) :
    (SIGN_VALUE + (leBytes (v - SIGN_VALUE)).length) % 256
      = SIGN_VALUE + (leBytes (v - SIGN_VALUE)).length := by
  have hle : (leBytes (v - SIGN_VALUE)).length ≤ 4 :=
    leBytes_length_le (lt_of_le_of_lt (Nat.sub_le v _) (by norm_num at hv ⊢; omega))
  have : SIGN_VALUE + (leBytes (v - SIGN_VALUE)).length < 256 := by
    simp only [SIGN_VALUE] at hle ⊢; omega
  exact Nat.mod_eq_of_lt this

theorem write_suffix_big {v : Nat} (h : ¬ v ≤ SIGN_VALUE) (hv : v < 2 ^ 32) :
    write_suffix v = leBytes (v - SIGN_VALUE)
      ++ [SIGN_VALUE + (leBytes (v - SIGN_VALUE)).length] := by
  rw [write_suffix, if_neg h, suffix_tag_eq h hv]

theorem size_of_suffix_append (e : List Nat) {v : Nat} (hv : v < 2 ^ 32) :
    size_of_suffix (e ++ write_suffix v) = (write_suffix v).length := by
  by_cases h : v ≤ SIGN_VALUE
  · simp [write_suffix, size_of_suffix, h, List.getLast?_append]
  · have hpos : 0 < (leBytes (v - SIGN_VALUE)).length :=
      leBytes_length_pos (by simp only [SIGN_VALUE] at h ⊢; omega)
    rw [write_suffix_big h hv, size_of_suffix, ← List.append_assoc]
    rw [List.getLast?_append]
    simp only [List.getLast?_singleton, Option.or_some]
    rw [if_neg (by simp only [SIGN_VALUE] at hpos ⊢; omega)]
    simp only [List.length_append, List.length_singleton, SIGN_VALUE] at hpos ⊢
    omega

theorem unwrap_suffix_append (e : List Nat) {v : Nat} (hv : v < 2 ^ 32) :
    unwrap_suffix (e ++ write_suffix v) = some (e, v) := by
  by_cases h : v ≤ SIGN_VALUE
  · rw [show write_suffix v = [v] from by rw [write_suffix, if_pos h]]
    rw [unwrap_suffix]
    simp only [List.reverse_append, List.reverse_singleton, List.singleton_append]
    rw [if_pos h]
    congr 1
    have : (e ++ [v]).length - 1 = e.length := by simp
    rw [this, List.take_left]
  · have hw0 : v - SIGN_VALUE ≠ 0 := by simp only [SIGN_VALUE] at h ⊢; omega
    have hwlt : v - SIGN_VALUE < 2 ^ 32 := lt_of_le_of_lt (Nat.sub_le v _) hv
    have hpos := leBytes_length_pos hw0
    rw [write_suffix_big h hv, unwrap_suffix, ← List.append_assoc]
    simp only [List.reverse_append, List.reverse_singleton, List.singleton_append]
    rw [if_neg (by omega)]
    have hlen : SIGN_VALUE + (leBytes (v - SIGN_VALUE)).length - SIGN_VALUE
        = (leBytes (v - SIGN_VALUE)).length := by omega
    rw [hlen]
    have hrl : ((leBytes (v - SIGN_VALUE)).reverse ++ e.reverse).length
        = (leBytes (v - SIGN_VALUE)).length + e.length := by simp
    rw [if_neg (by rw [hrl]; omega)]
    have htake : ((leBytes (v - SIGN_VALUE)).reverse ++ e.reverse).take
        (leBytes (v - SIGN_VALUE)).length = (leBytes (v - SIGN_VALUE)).reverse := by
      rw [show (leBytes (v - SIGN_VALUE)).length
          = (leBytes (v - SIGN_VALUE)).reverse.length from (List.length_reverse _).symm]
      exact List.take_left _ _
    rw [htake, leBytes_fold hwlt]
    have hval : v - SIGN_VALUE + SIGN_VALUE = v := by simp only [SIGN_VALUE] at h ⊢; omega
    rw [hval, Nat.mod_eq_of_lt hv]
    have hlen2 : (e ++ leBytes (v - SIGN_VALUE) ++ [SIGN_VALUE
        + (leBytes (v - SIGN_VALUE)).length]).length
        - ((leBytes (v - SIGN_VALUE)).length + 1) = e.length := by simp
    rw [hlen2]
    have htk := List.take_left e (leBytes (v - SIGN_VALUE)
      ++ [SIGN_VALUE + (leBytes (v - SIGN_VALUE)).length])
    rw [← List.append_assoc] at htk
    rw [htk]

theorem reset_suffix_append (e : List Nat) {a : Nat} (b : Nat) (ha : a < 2 ^ 32) :
    reset_suffix (e ++ write_suffix a) b = e ++ write_suffix b := by
  rw [reset_suffix, size_of_suffix_append e ha]
  have : (e ++ write_suffix a).length - (write_suffix a).length = e.length := by simp
  rw [this, List.take_left]

/-- C3: Suffix round-trip — for every `u32` value `v` and every entry `e`,
`unwrap_suffix (append_suffix e v)` returns exactly `(e, v)`, and
`size_of_suffix (append_suffix e v)` equals the encoded suffix length, which
is 1 byte for `v ≤ 247`, 2 bytes for `v` in `248..=247+255`, 3 bytes for the
next 65280 values, 4 bytes for the next 16711680 values and 5 bytes for the
remainder up to `u32::MAX`. -/
theorem suffix_round_trip (e : List Nat) (v : Nat) (hv : v < 2 ^ 32) :
    unwrap_suffix (append_suffix e v) = some (e, v) ∧
    size_of_suffix (append_suffix e v) = (append_suffix e v).length - e.length ∧
    (v ≤ 247 → size_of_suffix (append_suffix e v) = 1) ∧
    (248 ≤ v ∧ v ≤ 247 + 255 → size_of_suffix (append_suffix e v) = 2) ∧
    (247 + 256 ≤ v ∧ v ≤ 247 + 65535 → size_of_suffix (append_suffix e v) = 3) ∧
    (247 + 65536 ≤ v ∧ v ≤ 247 + 16777215 → size_of_suffix (append_suffix e v) = 4) ∧
    (247 + 16777216 ≤ v → size_of_suffix (append_suffix e v) = 5) := by
  refine ⟨unwrap_suffix_append e hv, ?_, ?_, ?_, ?_, ?_, ?_⟩
  · rw [append_suffix, size_of_suffix_append e hv]
    simp
  · intro h1
    rw [append_suffix, size_of_suffix_append e hv, write_suffix,
      if_pos (show v ≤ SIGN_VALUE from by simp only [SIGN_VALUE]; omega)]
    rfl
  · rintro ⟨h1, h2⟩
    have hnot : ¬ v ≤ SIGN_VALUE := by simp only [SIGN_VALUE]; omega
    rw [append_suffix, size_of_suffix_append e hv, write_suffix_big hnot hv]
    have hn : (leBytes (v - SIGN_VALUE)).length = 1 :=
      leBytes_length_eq (k := 0) (by simp only [SIGN_VALUE]; omega)
        (by simp only [SIGN_VALUE]; norm_num; omega)
    simp [hn]
  · rintro ⟨h1, h2⟩
    have hnot : ¬ v ≤ SIGN_VALUE := by simp only [SIGN_VALUE]; omega
    rw [append_suffix, size_of_suffix_append e hv, write_suffix_big hnot hv]
    have hn : (leBytes (v - SIGN_VALUE)).length = 2 :=
      leBytes_length_eq (k := 1) (by simp only [SIGN_VALUE]; norm_num; omega)
        (by simp only [SIGN_VALUE]; norm_num; omega)
    simp [hn]
  · rintro ⟨h1, h2⟩
    have hnot : ¬ v ≤ SIGN_VALUE := by simp only [SIGN_VALUE]; omega
    rw [append_suffix, size_of_suffix_append e hv, write_suffix_big hnot hv]
    have hn : (leBytes (v - SIGN_VALUE)).length = 3 :=
      leBytes_length_eq (k := 2) (by simp only [SIGN_VALUE]; norm_num; omega)
        (by simp only [SIGN_VALUE]; norm_num; omega)
    simp [hn]
  · intro h1
    have hnot : ¬ v ≤ SIGN_VALUE := by simp only [SIGN_VALUE]; omega
    rw [append_suffix, size_of_suffix_append e hv, write_suffix_big hnot hv]
    have hn : (leBytes (v - SIGN_VALUE)).length = 4 :=
      leBytes_length_eq (k := 3) (by simp only [SIGN_VALUE]; norm_num; omega)
        (by simp only [SIGN_VALUE]; norm_num at hv ⊢; omega)
    simp [hn]

/-- Witness for C3 at the concrete input `e = [1, 2]`, `v = 503`. -/
theorem suffix_round_trip_witness :
    (503 : Nat) < 2 ^ 32 ∧ unwrap_suffix (append_suffix [1, 2] 503) = some ([1, 2], 503) :=
  ⟨by norm_num, (suffix_round_trip [1, 2] 503 (by norm_num)).1⟩

/-- C9: Reset equivalence — for every entry `e` and all `u32` values `a`, `b`,
`unwrap_suffix (reset_suffix (append_suffix e a) b) = (e, b)`: `reset_suffix`
replaces exactly the existing tail suffix with a fresh encoding of `b`,
leaving the prefix `e` unchanged. -/
theorem reset_equivalence (e : List Nat) (a b : Nat) (ha : a < 2 ^ 32) (hb : b < 2 ^ 32) :
    unwrap_suffix (reset_suffix (append_suffix e a) b) = some (e, b) := by
  rw [append_suffix, reset_suffix_append e b ha]
  exact unwrap_suffix_append e hb

/-- Witness for C9 at the concrete input `e = [9]`, `a = 1000`, `b = 3`. -/
theorem reset_equivalence_witness :
    (1000 : Nat) < 2 ^ 32 ∧ (3 : Nat) < 2 ^ 32 ∧
      unwrap_suffix (reset_suffix (append_suffix [9] 1000) 3) = some ([9], 3) :=
  ⟨by norm_num, by norm_num, reset_equivalence [9] 1000 3 (by norm_num) (by norm_num)⟩

/-! Helper lemmas for the packed integer codec. -/

theorem wrapI_eq_self {w : Nat} {x : Int} (hw : 1 ≤ w)
    (h1 : -(2 : Int) ^ (w - 1) ≤ x) (h2 : x < 2 ^ (w - 1)) : wrapI w x = x := by
  have hp : (2 : Int) ^ w = 2 ^ (w - 1) * 2 := by
    rw [← pow_succ]
    congr 1
    omega
  have h0 : (0 : Int) ≤ x + 2 ^ (w - 1) := by linarith
  have hlt : x + 2 ^ (w - 1) < 2 ^ w := by rw [hp]; linarith
  unfold wrapI
  rw [Int.emod_eq_of_lt h0 hlt]
  ring

theorem int_fold_leBytes {w : Nat} (hw : 1 ≤ w) {m : Nat} (hm : (m : Int) < 2 ^ (w - 1)) :
    (leBytes m).reverse.foldl (readStep w) 0 = m := by
  induction m using Nat.strong_induction_on with
  | _ m ih =>
    by_cases h0 : m = 0
    · subst h0; simp [leBytes_zero]
    · rw [leBytes_pos h0]
      simp only [List.reverse_cons, List.foldl_append, List.foldl_cons, List.foldl_nil]
      have hdlt : m / 256 < m := Nat.div_lt_self (Nat.pos_of_ne_zero h0) (by norm_num)
      have hdm : ((m / 256 : Nat) : Int) < 2 ^ (w - 1) :=
        lt_of_le_of_lt (by exact_mod_cast Nat.div_le_self m 256) hm
      rw [ih (m / 256) hdlt hdm, readStep]
      have hmod : ((m / 256 : Nat) : Int) * 256 + ((m % 256 : Nat) : Int) = (m : Int) := by
        push_cast
        omega
      rw [hmod]
      exact wrapI_eq_self hw ((neg_nonpos.mpr (by positivity)).trans (Int.natCast_nonneg m)) hm

theorem pack_write_pos {v : Int} (h : 119 < v) (hb : (leBytes (v - 119).toNat).length ≤ 8) :
    pack_write v = (119 + (leBytes (v - 119).toNat).length) :: leBytes (v - 119).toNat := by
  rw [pack_write, if_neg (by omega), if_pos h]
  congr 2
  exact Nat.mod_eq_of_lt (by omega)

theorem pack_write_neg {v : Int} (h : v < -119)
    (hb : (leBytes (-(v + 119)).toNat).length ≤ 8) :
    pack_write v = (137 - (leBytes (-(v + 119)).toNat).length)
      :: leBytes (-(v + 119)).toNat := by
  rw [pack_write, if_pos h]
  have hn1 : 1 ≤ (leBytes (-(v + 119)).toNat).length :=
    leBytes_length_pos (by omega)
  congr 2
  generalize (leBytes (-(v + 119)).toNat).length = n at hn1 hb ⊢
  omega

theorem pack_read_pack_write {w : Nat} (hw8 : 8 ≤ w) (hw64 : w ≤ 64) {v : Int}
    (hlo : -(2 : Int) ^ (w - 1) ≤ v) (hhi : v < 2 ^ (w - 1)) :
    pack_read w (pack_write v) = some (v, (pack_write v).length) := by
  have hw1 : 1 ≤ w := by omega
  have hpow : (2 : Int) ^ (w - 1) ≤ 2 ^ 63 :=
    pow_le_pow_right₀ (by norm_num) (by omega)
  by_cases hneg : v < -119
  · have hm : ((-(v + 119)).toNat : Int) = -v - 119 := by omega
    have hmlt : ((-(v + 119)).toNat : Int) < 2 ^ (w - 1) := by
      rw [hm]; omega
    have hmn : (-(v + 119)).toNat < 2 ^ 64 := by
      have h63 : ((-(v + 119)).toNat : Int) < 2 ^ 63 := lt_of_lt_of_le hmlt hpow
      omega
    have hb : (leBytes (-(v + 119)).toNat).length ≤ 8 :=
      leBytes_length_le (by norm_num at hmn ⊢; omega)
    have hn1 : 1 ≤ (leBytes (-(v + 119)).toNat).length :=
      leBytes_length_pos (by omega)
    rw [pack_write_neg hneg hb]
    have htag : asI8 (137 - (leBytes (-(v + 119)).toNat).length)
        = -119 - (leBytes (-(v + 119)).toNat).length := by
      unfold asI8
      split <;>
        (generalize (leBytes (-(v + 119)).toNat).length = n at *) <;>
        omega
    simp only [pack_read, htag]
    rw [if_pos (by omega)]
    have hln : (-(-119 - ((leBytes (-(v + 119)).toNat).length : Int) + 119)).toNat
        = (leBytes (-(v + 119)).toNat).length := by omega
    rw [hln, if_neg (by omega), List.take_length]
    rw [int_fold_leBytes hw1 hmlt]
    have hval : -(((-(v + 119)).toNat : Int)) - 119 = v := by omega
    rw [hval, wrapI_eq_self hw1 hlo (by omega)]
    simp
  · by_cases hpos : 119 < v
    · have hm : (((v - 119).toNat : Int)) = v - 119 := by omega
      have hmlt : (((v - 119).toNat : Int)) < 2 ^ (w - 1) := by rw [hm]; omega
      have hmn : (v - 119).toNat < 2 ^ 64 := by
        have h63 : (((v - 119).toNat : Int)) < 2 ^ 63 := lt_of_lt_of_le hmlt hpow
        omega
      have hb : (leBytes (v - 119).toNat).length ≤ 8 :=
        leBytes_length_le (by norm_num at hmn ⊢; omega)
      have hn1 : 1 ≤ (leBytes (v - 119).toNat).length :=
        leBytes_length_pos (by omega)
      rw [pack_write_pos hpos hb]
      have htag : asI8 (119 + (leBytes (v - 119).toNat).length)
          = 119 + (leBytes (v - 119).toNat).length := by
        unfold asI8
        rw [if_pos (by omega)]
        push_cast
        ring
      simp only [pack_read, htag]
      rw [if_neg (by omega), if_pos (by omega)]
      have hln : ((119 + ((leBytes (v - 119).toNat).length : Int) - 119)).toNat
          = (leBytes (v - 119).toNat).length := by omega
      rw [hln, if_neg (by omega), List.take_length]
      rw [int_fold_leBytes hw1 hmlt]
      have hval : (((v - 119).toNat : Int)) + 119 = v := by omega
      rw [hval, wrapI_eq_self hw1 hlo hhi]
      simp
    · have h119 : (2 : Int) ^ (w - 1) ≥ 128 := by
        calc (2 : Int) ^ (w - 1) ≥ 2 ^ 7 := pow_le_pow_right₀ (by norm_num) (by omega)
          _ ≥ 128 := by norm_num
      have hb0 : asI8 ((v % 256).toNat) = v := by
        unfold asI8
        split <;> omega
      rw [pack_write, if_neg hneg, if_neg (by omega)]
      simp only [pack_read, hb0]
      rw [if_neg (by omega), if_neg (by omega)]
      simp

/-- C5: Packed signed integer round-trip — for every `i32` value `v`,
reading back the bytes written for `PackedI32(v)` yields `v` with the same
length, likewise for every `i64` value (including `i32::MIN` / `i64::MIN`);
the encoded length is 1 byte when `|v| ≤ 119` and grows by one byte per
factor of 256 of `|v| - 119`, up to 5 bytes for `i32` and 9 for `i64`. -/
theorem packed_int_round_trip (v32 v64 : Int)
    (h32lo : -(2 : Int) ^ 31 ≤ v32) (h32hi : v32 < 2 ^ 31)
    (h64lo : -(2 : Int) ^ 63 ≤ v64) (h64hi : v64 < 2 ^ 63) :
    (pack_read 32 (pack_write v32) = some (v32, (pack_write v32).length) ∧
      (v32.natAbs ≤ 119 → (pack_write v32).length = 1) ∧
      (119 < v32.natAbs →
        256 ^ ((pack_write v32).length - 2) ≤ v32.natAbs - 119 ∧
        v32.natAbs - 119 < 256 ^ ((pack_write v32).length - 1) ∧
        (pack_write v32).length ≤ 5)) ∧
    (pack_read 64 (pack_write v64) = some (v64, (pack_write v64).length) ∧
      (v64.natAbs ≤ 119 → (pack_write v64).length = 1) ∧
      (119 < v64.natAbs →
        256 ^ ((pack_write v64).length - 2) ≤ v64.natAbs - 119 ∧
        v64.natAbs - 119 < 256 ^ ((pack_write v64).length - 1) ∧
        (pack_write v64).length ≤ 9)) := by
  have hmain : ∀ (w : Nat), 8 ≤ w → w ≤ 64 → ∀ (v : Int),
      -(2 : Int) ^ (w - 1) ≤ v → v < 2 ^ (w - 1) →
      (v.natAbs ≤ 119 → (pack_write v).length = 1) ∧
      (119 < v.natAbs →
        256 ^ ((pack_write v).length - 2) ≤ v.natAbs - 119 ∧
        v.natAbs - 119 < 256 ^ ((pack_write v).length - 1) ∧
        (pack_write v).length = (leBytes (v.natAbs - 119)).length + 1) := by
    intro w hw8 hw64 v hlo hhi
    have hpow : (2 : Int) ^ (w - 1) ≤ 2 ^ 63 :=
      pow_le_pow_right₀ (by norm_num) (by omega)
    constructor
    · intro hsmall
      rw [pack_write, if_neg (by omega), if_neg (by omega)]
      rfl
    · intro hbig
      have hmn : v.natAbs - 119 < 2 ^ 64 := by
        have : (v.natAbs : Int) ≤ 2 ^ 63 := by
          rcases Int.natAbs_eq v with he | he <;> omega
        omega
      have hb8 : (leBytes (v.natAbs - 119)).length ≤ 8 :=
        leBytes_length_le (by norm_num at hmn ⊢; omega)
      have hlen : (pack_write v).length = (leBytes (v.natAbs - 119)).length + 1 := by
        by_cases hneg : v < -119
        · have he : (-(v + 119)).toNat = v.natAbs - 119 := by omega
          rw [pack_write_neg hneg (by rw [he]; exact hb8)]
          simp only [List.length_cons, he]
        · have hpos : 119 < v := by omega
          have he : (v - 119).toNat = v.natAbs - 119 := by omega
          rw [pack_write_pos hpos (by rw [he]; exact hb8)]
          simp only [List.length_cons, he]
      refine ⟨?_, ?_, hlen⟩
      · rw [hlen]
        simpa using leBytes_ge (w := v.natAbs - 119) (by omega)
      · rw [hlen]
        simpa using leBytes_lt (w := v.natAbs - 119)
  have h32 := hmain 32 (by norm_num) (by norm_num) v32 (by norm_num at h32lo ⊢; omega)
    (by norm_num at h32hi ⊢; omega)
  have h64 := hmain 64 (by norm_num) (by norm_num) v64 (by norm_num at h64lo ⊢; omega)
    (by norm_num at h64hi ⊢; omega)
  refine ⟨⟨pack_read_pack_write (by norm_num) (by norm_num)
      (by norm_num at h32lo ⊢; omega) (by norm_num at h32hi ⊢; omega), h32.1, ?_⟩,
    ⟨pack_read_pack_write (by norm_num) (by norm_num)
      (by norm_num at h64lo ⊢; omega) (by norm_num at h64hi ⊢; omega), h64.1, ?_⟩⟩
  · intro hbig
    obtain ⟨ha, hb, hc⟩ := h32.2 hbig
    refine ⟨ha, hb, ?_⟩
    rw [hc]
    have : v32.natAbs - 119 < 256 ^ 4 := by
      have h1 : (v32.natAbs : Int) ≤ 2 ^ 31 := by
        rcases Int.natAbs_eq v32 with he | he <;> omega
      norm_num
      omega
    have := leBytes_length_le this
    omega
  · intro hbig
    obtain ⟨ha, hb, hc⟩ := h64.2 hbig
    refine ⟨ha, hb, ?_⟩
    rw [hc]
    have h4 : v64.natAbs - 119 < 256 ^ 8 := by
      have h1 : (v64.natAbs : Int) ≤ 2 ^ 63 := by
        rcases Int.natAbs_eq v64 with he | he <;> omega
      norm_num
      omega
    have := leBytes_length_le h4
    omega

/-- Witness for C5 at the concrete inputs `v32 = i32::MIN`, `v64 = 120`. -/
theorem packed_int_round_trip_witness :
    -(2 : Int) ^ 31 ≤ -2147483648 ∧ (120 : Int) < 2 ^ 63 ∧
      pack_read 32 (pack_write (-2147483648)) =
        some (-2147483648, (pack_write (-2147483648)).length) :=
  ⟨by norm_num, by norm_num,
    ((packed_int_round_trip (-2147483648) 120 (by norm_num) (by norm_num)
      (by norm_num) (by norm_num)).1).1⟩

/-! Helper lemmas for the string codec. -/

theorem strTerm_append (s post : List Nat) (h0 : 0 ∉ s) :
    strTerm (s ++ 0 :: post) = some s.length := by
  induction s with
  | nil => simp [strTerm]
  | cons a s ih =>
    have ha : a ≠ 0 := by
      intro hc
      exact h0 (hc ▸ List.mem_cons_self a s)
    have h0s : 0 ∉ s := fun hm => h0 (List.mem_cons_of_mem a hm)
    simp [strTerm, ha, ih h0s]

theorem read_string_at (pre rest : List Nat) :
    read_string (pre ++ rest) pre.length =
      match rest[0]? with
      | none => none
      | some n =>
        if n = UTF_NULL then some (none, pre.length + 1)
        else
          match strTerm rest with
          | some p => some (some (rest.take p), pre.length + p + 1)
          | none => none := by
  rw [read_string, List.getElem?_append_right (le_refl _), Nat.sub_self, List.drop_left]

/-- C8: Null-aware string codec round-trip — for every string `s` with no
`0x00` byte, `write_str (some s)` emits exactly the UTF-8 bytes of `s`
followed by one `0x00` terminator and a read at that position returns
`some s`, advancing past exactly the bytes written; `write_str none` emits
the single byte `0xFF` and reads back as `none`.  (`0xFF` never occurs in
valid UTF-8, whence the second hypothesis.) -/
theorem string_codec_round_trip (pre s post : List Nat) (h0 : 0 ∉ s) (hff : 255 ∉ s) :
    write_str (some s) = s ++ [0] ∧
    write_str none = [255] ∧
    read_string (pre ++ (write_str (some s) ++ post)) pre.length
      = some (some s, pre.length + s.length + 1) ∧
    read_string (pre ++ (write_str none ++ post)) pre.length
      = some (none, pre.length + 1) := by
  refine ⟨rfl, rfl, ?_, ?_⟩
  · have hrw : write_str (some s) ++ post = s ++ 0 :: post := by
      simp [write_str]
    rw [hrw, read_string_at]
    rw [strTerm_append s post h0]
    cases s with
    | nil => simp [UTF_NULL]
    | cons a s2 =>
      have ha : a ≠ UTF_NULL := by
        intro hc
        exact hff (by rw [UTF_NULL] at hc; exact hc ▸ List.mem_cons_self a s2)
      simp only [List.cons_append, List.getElem?_cons_zero, if_neg ha]
      have htk : ((a :: s2) ++ 0 :: post).take (a :: s2).length = a :: s2 :=
        List.take_left _ _
      rw [List.cons_append] at htk
      rw [htk]
  · rw [show write_str none ++ post = 255 :: post from rfl, read_string_at]
    simp [UTF_NULL]

/-- Witness for C8 at the concrete input `pre = [7]`, `s = [72, 105]`,
`post = [9]`. -/
theorem string_codec_round_trip_witness :
    (0 : Nat) ∉ [72, 105] ∧ (255 : Nat) ∉ [72, 105] ∧
      read_string ([7] ++ (write_str (some [72, 105]) ++ [9])) [7].length
        = some (some [72, 105], [7].length + [72, 105].length + 1) :=
  ⟨by decide, by decide,
    (string_codec_round_trip [7] [72, 105] [9] (by decide) (by decide)).2.2.1⟩

/-! Helper lemmas for cursor skip. -/

theorem pk_skip_exhausts {es : List (List Nat × List Nat)} :
    ∀ {c : Nat}, c < 2 ^ 64 → es.length < (if c = 0 then 2 ^ 64 else c) →
      pk_skip c es = none := by
  induction es with
  | nil => intro c _ _; rfl
  | cons e rest ih =>
    intro c hc h
    rw [pk_skip]
    by_cases hc0 : c = 0
    · subst hc0
      rw [if_neg (by omega)]
      exact ih (by omega) (by rw [if_neg (by omega)]; simp at h; omega)
    · rw [if_neg hc0] at h
      simp only [List.length_cons] at h
      rw [if_neg (by omega)]
      exact ih (by omega) (by rw [if_neg (by omega)]; omega)

theorem s_skip_exhausts {es : List ((Nat × Nat) × Nat)} :
    ∀ {c : Nat}, c < 2 ^ 64 → es.length < (if c = 0 then 2 ^ 64 else c) →
      s_skip c es = false := by
  induction es with
  | nil => intro c _ _; rfl
  | cons e rest ih =>
    intro c hc h
    rw [s_skip]
    by_cases hc0 : c = 0
    · subst hc0
      rw [if_neg (by omega)]
      exact ih (by omega) (by rw [if_neg (by omega)]; simp at h; omega)
    · rw [if_neg hc0] at h
      simp only [List.length_cons] at h
      rw [if_neg (by omega)]
      exact ih (by omega) (by rw [if_neg (by omega)]; omega)

/-- C10: skip(0) underflow — in `PKCursor::skip` and `IDXCursor::s_skip`
the `usize` counter is decremented before the zero test, so a call with
`count = 0` on a cursor with a remaining entry first wraps the counter to
`2 ^ 64 - 1`; consequently the entry at the current position is never
reported: on any iterator shorter than `2 ^ 64` entries the call consumes
the remaining iterator and returns false, and on an exhausted cursor it
returns false without the underflow occurring. -/
theorem skip_zero_underflow (es : List (List Nat × List Nat))
    (is : List ((Nat × Nat) × Nat)) (hes : es.length < 2 ^ 64)
    (his : is.length < 2 ^ 64) :
    (0 + (2 ^ 64 - 1)) % 2 ^ 64 = 2 ^ 64 - 1 ∧
    pk_skip 0 es = none ∧ s_skip 0 is = false ∧
    pk_skip 0 [] = none ∧ s_skip 0 [] = false :=
  ⟨by omega, pk_skip_exhausts (by omega) (by rw [if_pos rfl]; omega),
    s_skip_exhausts (by omega) (by rw [if_pos rfl]; omega), rfl, rfl⟩

/-- Witness for C10 at the concrete iterators `[([1], [2])]` and
`[((5, 1), 3)]`. -/
theorem skip_zero_underflow_witness :
    ([([1], [2])] : List (List Nat × List Nat)).length < 2 ^ 64 ∧
      pk_skip 0 [([1], [2])] = none ∧ s_skip 0 [((5, 1), 3)] = false :=
  ⟨by norm_num,
    (skip_zero_underflow [([1], [2])] [((5, 1), 3)] (by norm_num) (by norm_num)).2.1,
    (skip_zero_underflow [([1], [2])] [((5, 1), 3)] (by norm_num) (by norm_num)).2.2.1⟩

/-- C6: Configuration rejection — for every name and every config with
`temporary = true` and `readonly = true`, `Instance::open_schema`,
`SchemaImpl::create_kv_table` and `SchemaImpl::open_kv_table` each fail
with error kind `Configuration`; the check precedes every effect, so no
state is created or opened (the error result carries no new state). -/
theorem configuration_rejection (ist : InstSt) (sst : SchemaSt) (n : Nat)
    (sc : SchemaConfig) (tc : TableConfig)
    (hs1 : sc.temporary = true) (hs2 : sc.readonly = true)
    (ht1 : tc.temporary = true) (ht2 : tc.readonly = true) :
    open_schema ist n sc = .error .configuration ∧
    create_kv_table sst n tc = .error .configuration ∧
    open_kv_table sst n tc = .error .configuration := by
  refine ⟨?_, ?_, ?_⟩ <;>
    simp [open_schema, create_kv_table, open_kv_table, hs1, hs2, ht1, ht2]

/-- Witness for C6 at a concrete instance, schema and config. -/
theorem configuration_rejection_witness :
    (SchemaConfig.mk true true none none none).temporary = true ∧
      open_schema ⟨[]⟩ 4 ⟨true, true, none, none, none⟩ = .error .configuration :=
  ⟨rfl, (configuration_rejection ⟨[]⟩ ⟨⟨false, false, none, none, none⟩, [], []⟩ 4
    ⟨true, true, none, none, none⟩ ⟨true, true⟩ rfl rfl rfl rfl).1⟩

/-- C7 counterexample: on a schema whose config leaves `max_cache` unset,
`SchemaImpl::open` does not insert the freshly opened handle into the table
cache, so a second `open_kv_table` of table 5 with a different `readonly`
flag succeeds instead of failing with `Configuration`, even though the
first handle is still held by its caller. -/
theorem table_reopen_mismatch_counterexample :
    open_kv_table ⟨⟨false, false, none, none, none⟩, [5], []⟩ 5 ⟨false, false⟩
        = .ok (⟨false, false⟩, ⟨⟨false, false, none, none, none⟩, [5], []⟩) ∧
      ¬ open_kv_table ⟨⟨false, false, none, none, none⟩, [5], []⟩ 5 ⟨true, false⟩
        = .error .configuration := by
  constructor
  · rfl
  · intro hc
    simp [open_kv_table, schema_open, tablesGet] at hc

/-- C7 (amended): when the schema config has `max_cache` set — so that
`SchemaImpl::open` caches the opened handle — a table opened with config
`c1` and re-opened with a config differing in `readonly` or `temporary`
fails with `Configuration` on the second open. -/
theorem table_reopen_mismatch (st st2 : SchemaSt) (n : Nat) (c1 c2 : TableConfig)
    (hmc : st.config.maxCache.isSome = true)
    (hnc : tablesGet st.tables n = none)
    (hvalid : ¬ (c1.temporary = true ∧ c1.readonly = true))
    (hopen : open_kv_table st n c1 = .ok (c1, st2))
    (hdiff : c1.readonly ≠ c2.readonly ∨ c1.temporary ≠ c2.temporary) :
    open_kv_table st2 n c2 = .error .configuration := by
  have hval2 : ¬ (c1.temporary && c1.readonly) = true := by
    cases h1 : c1.temporary <;> cases h2 : c1.readonly <;> simp_all
  by_cases hmeta : n ∈ st.meta
  · have hopen2 : open_kv_table st n c1
        = .ok (c1, { st with tables := (n, c1) :: st.tables }) := by
      rw [open_kv_table, if_neg hval2, if_neg (not_not_intro hmeta), schema_open, hnc,
        if_pos hmc]
    have hst2 : ({ st with tables := (n, c1) :: st.tables } : SchemaSt) = st2 := by
      have h12 := hopen2.symm.trans hopen
      injection h12 with h
      exact congrArg Prod.snd h
    subst hst2
    rw [open_kv_table]
    by_cases hc2 : (c2.temporary && c2.readonly) = true
    · rw [if_pos hc2]
    · rw [if_neg hc2, if_neg (not_not_intro hmeta)]
      have hget : tablesGet ((n, c1) :: st.tables) n = some c1 := by
        simp [tablesGet]
      simp only [schema_open, hget]
      rw [if_pos hdiff]
  · rw [open_kv_table, if_neg hval2, if_pos hmeta] at hopen
    exact absurd hopen (by simp)

/-- Witness for C7 (amended) at a concrete schema with `max_cache = some 16`. -/
theorem table_reopen_mismatch_witness :
    open_kv_table ⟨⟨false, false, some 16, none, none⟩, [5], []⟩ 5 ⟨false, false⟩
        = .ok (⟨false, false⟩,
            ⟨⟨false, false, some 16, none, none⟩, [5], [(5, ⟨false, false⟩)]⟩) ∧
      open_kv_table ⟨⟨false, false, some 16, none, none⟩, [5], [(5, ⟨false, false⟩)]⟩
          5 ⟨true, false⟩ = .error .configuration :=
  ⟨rfl, table_reopen_mismatch ⟨⟨false, false, some 16, none, none⟩, [5], []⟩
    ⟨⟨false, false, some 16, none, none⟩, [5], [(5, ⟨false, false⟩)]⟩ 5
    ⟨false, false⟩ ⟨true, false⟩ rfl rfl (by simp) rfl (by simp)⟩

/-- C1 (code bug): starting from an empty primary with one registered
non-unique index whose creator extracts the constant prefix 5, after
`put(1, 10)` then `put(2, 20)` the primary holds both records but the index
holds a single entry `((5, 1) ↦ 2)` — the second put's probe assigned
ordinal 1 again and overwrote the first record's entry, so the index does
not contain one suffixed entry per primary record; a subsequent
`delete(2)` removes the primary record but leaves the index entry
`((5, 1) ↦ 2)` stale, because the delete scan starts after the whole
duplicate group. -/
theorem index_consistency_violation :
    (prim_put (prim_put ⟨[], [(constCreator, [])]⟩ 1 10) 2 20).primary
        = [(1, 10), (2, 20)] ∧
    (prim_put (prim_put ⟨[], [(constCreator, [])]⟩ 1 10) 2 20).listeners.map (·.2)
        = [[((5, 1), 2)]] ∧
    (prim_delete (prim_put (prim_put ⟨[], [(constCreator, [])]⟩ 1 10) 2 20) 2).primary
        = [(1, 10)] ∧
    (prim_delete (prim_put (prim_put ⟨[], [(constCreator, [])]⟩ 1 10) 2 20)
        2).listeners.map (·.2) = [[((5, 1), 2)]] := by
  refine ⟨?_, ?_, ?_, ?_⟩ <;> rfl

/-! Helper lemmas for the cache cleanup policy. -/

theorem liveItems_subset {pool : List PoolItem} {ml : Option Nat} {now : Int} :
    liveItems pool ml now ⊆ pool := by
  cases ml with
  | none => exact fun a ha => ha
  | some t =>
    simp only [liveItems]
    by_cases ht : t = 0
    · rw [if_neg (not_not_intro ht)]
      exact fun a ha => ha
    · rw [if_pos ht]
      exact fun a ha => List.mem_of_mem_filter ha

theorem mem_liveItems {pool : List PoolItem} {ml : Option Nat} {now : Int} {x : PoolItem}
    (hx : x ∈ pool) (hml : ∀ t, ml = some t → t ≠ 0 → (t : Int) < now - x.last) :
    x ∈ liveItems pool ml now := by
  cases ml with
  | none => exact hx
  | some t =>
    simp only [liveItems]
    by_cases ht : t = 0
    · rw [if_neg (not_not_intro ht)]
      exact hx
    · rw [if_pos ht]
      exact List.mem_filter.mpr ⟨hx, decide_eq_true (hml t rfl ht)⟩

theorem not_mem_liveItems {pool : List PoolItem} {now : Int}
    {x : PoolItem} {t : Nat} (ht : t ≠ 0)
    (hfresh : now - x.last ≤ t) : x ∉ liveItems pool (some t) now := by
  simp only [liveItems]
  rw [if_pos ht]
  intro hc
  have := (List.mem_filter.mp hc).2
  simp only [decide_eq_true_iff] at this
  omega

theorem idleKeep_subset {items1 : List PoolItem} {mi : Option Nat} {now : Int} :
    idleKeep items1 mi now ⊆ items1 := by
  cases mi with
  | none => exact fun a ha => ha
  | some u =>
    simp only [idleKeep]
    by_cases hu : u = 0
    · rw [if_neg (not_not_intro hu)]
      exact fun a ha => ha
    · rw [if_pos hu]
      exact fun a ha => List.mem_of_mem_filter ha

theorem idleNames_subset {items1 : List PoolItem} {mi : Option Nat} {now : Int} {nm : Nat}
    (h : nm ∈ idleNames items1 mi now) : ∃ z ∈ items1, z.name = nm := by
  cases mi with
  | none => cases h
  | some u =>
    simp only [idleNames] at h
    by_cases hu : u = 0
    · rw [if_neg (not_not_intro hu)] at h
      cases h
    · rw [if_pos hu] at h
      obtain ⟨z, hz, hzn⟩ := List.mem_map.mp h
      exact ⟨z, List.mem_of_mem_filter hz, hzn⟩

theorem oldNames_subset {items2 : List PoolItem} {m : Nat} {nm : Nat}
    (h : nm ∈ oldNames items2 m) : ∃ z ∈ items2, z.name = nm := by
  unfold oldNames at h
  obtain ⟨z, hz, hzn⟩ := List.mem_map.mp h
  have hz2 : z ∈ items2.mergeSort (fun a b => decide (a.last ≤ b.last)) :=
    List.take_subset _ _ hz
  exact ⟨z, (List.mergeSort_perm items2 _).mem_iff.mp hz2, hzn⟩

/-- Criterion 1: an item whose idle time is within a set, nonzero
`min_live_time` is protected from the later criteria. -/
theorem cleanup_protects {pool : List PoolItem} {cfg : CacheCfg} {now : Int}
    (hnd : (pool.map (·.name)).Nodup) {x : PoolItem} (hx : x ∈ pool) {t : Nat}
    (hml : cfg.minLive = some t) (ht : t ≠ 0) (hfresh : now - x.last ≤ t) :
    x ∈ cleanup pool cfg now := by
  have hinj := List.inj_on_of_nodup_map hnd
  have hxnl : x ∉ liveItems pool cfg.minLive now := by
    rw [hml]
    exact not_mem_liveItems ht hfresh
  have hname1 : x.name ∉ idleNames (liveItems pool cfg.minLive now) cfg.maxIdle now := by
    intro hc
    obtain ⟨z, hz, hzn⟩ := idleNames_subset hc
    exact hxnl (hinj (liveItems_subset hz) hx hzn ▸ hz)
  have hxp2 : x ∈ pool.filter
      (fun y => ! decide (y.name ∈ idleNames (liveItems pool cfg.minLive now)
        cfg.maxIdle now)) :=
    List.mem_filter.mpr ⟨hx, by simpa using hname1⟩
  have hname2 : ∀ m,
      x.name ∉ oldNames (idleKeep (liveItems pool cfg.minLive now) cfg.maxIdle now) m := by
    intro m hc
    obtain ⟨z, hz, hzn⟩ := oldNames_subset hc
    exact hxnl (hinj (liveItems_subset (idleKeep_subset hz)) hx hzn ▸ idleKeep_subset hz)
  simp only [cleanup]
  split
  · exact hx
  split
  · exact hx
  split
  · exact hxp2
  split
  · split
    · exact List.mem_filter.mpr ⟨hxp2, by simpa using hname2 _⟩
    · exact hxp2
  · exact hxp2

/-- Criterion 2: a considered item idle beyond a set, nonzero
`max_idle_time` is removed from the pool. -/
theorem cleanup_removes_idle {pool : List PoolItem} {cfg : CacheCfg} {now : Int}
    {x : PoolItem} (hx : x ∈ pool)
    (hml : ∀ t, cfg.minLive = some t → t ≠ 0 → (t : Int) < now - x.last)
    {u : Nat} (hmi : cfg.maxIdle = some u) (hu : u ≠ 0)
    (hidle : (u : Int) < now - x.last) : x ∉ cleanup pool cfg now := by
  have hxl : x ∈ liveItems pool cfg.minLive now := mem_liveItems hx hml
  have hname : x.name ∈ idleNames (liveItems pool cfg.minLive now) cfg.maxIdle now := by
    rw [hmi]
    simp only [idleNames]
    rw [if_pos hu]
    exact List.mem_map.mpr ⟨x, List.mem_filter.mpr ⟨hxl, decide_eq_true hidle⟩, rfl⟩
  have hxnp2 : x ∉ pool.filter
      (fun y => ! decide (y.name ∈ idleNames (liveItems pool cfg.minLive now)
        cfg.maxIdle now)) := by
    intro hc
    have := (List.mem_filter.mp hc).2
    simp only [Bool.not_eq_true', decide_eq_false_iff_not] at this
    exact this hname
  have hpne : ¬ pool.isEmpty = true := by
    simp only [List.isEmpty_iff]
    intro h
    subst h
    cases hx
  have hlne : ¬ (liveItems pool cfg.minLive now).isEmpty = true := by
    simp only [List.isEmpty_iff]
    intro h
    rw [h] at hxl
    cases hxl
  simp only [cleanup]
  rw [if_neg hpne, if_neg hlne]
  split
  · exact hxnp2
  split
  · split
    · intro hc
      exact hxnp2 (List.mem_of_mem_filter hc)
    · exact hxnp2
  · exact hxnp2

/-- Criterion 3: with only `max_cache = m` set, cleanup retains exactly
`min (len, m)` entries and every survivor is at least as recent as every
evicted entry. -/
theorem cleanup_max_cache {pool : List PoolItem} {now : Int}
    (hnd : (pool.map (·.name)).Nodup) (m : Nat) :
    (cleanup pool ⟨some m, none, none⟩ now).length = min pool.length m ∧
    ∀ x ∈ cleanup pool ⟨some m, none, none⟩ now,
      ∀ y ∈ pool, y ∉ cleanup pool ⟨some m, none, none⟩ now → y.last ≤ x.last := by
  by_cases hpe : pool = []
  · subst hpe
    simp [cleanup]
  · have hpne : ¬ (pool : List PoolItem).isEmpty = true := by
      simpa [List.isEmpty_iff] using hpe
    have hfq : pool.filter (fun y => ! decide (y.name ∈ ([] : List Nat))) = pool := by
      simp
    have hclean : cleanup pool ⟨some m, none, none⟩ now =
        if m < pool.length then
          pool.filter (fun y => ! decide (y.name ∈ oldNames pool m))
        else pool := by
      simp only [cleanup, liveItems, idleNames, idleKeep]
      rw [if_neg hpne, if_neg hpne, if_neg hpne, hfq]
    by_cases hm : m < pool.length
    · rw [hclean, if_pos hm]
      have htrans : ∀ (a b c : PoolItem), decide (a.last ≤ b.last) = true →
          decide (b.last ≤ c.last) = true → decide (a.last ≤ c.last) = true := by
        intro a b c h1 h2
        simp only [decide_eq_true_iff] at *
        exact le_trans h1 h2
      have htotal : ∀ (a b : PoolItem),
          (decide (a.last ≤ b.last) || decide (b.last ≤ a.last)) = true := by
        intro a b
        rcases le_total a.last b.last with h | h <;> simp [h]
      have hperm := List.mergeSort_perm pool (fun a b => decide (a.last ≤ b.last))
      have hsorted := List.sorted_mergeSort htrans htotal pool
      have htd := List.take_append_drop (pool.length - m)
        (pool.mergeSort (fun a b => decide (a.last ≤ b.last)))
      have hold : oldNames pool m = ((pool.mergeSort
          (fun a b => decide (a.last ≤ b.last))).take (pool.length - m)).map (·.name) := rfl
      have hnds : ((pool.mergeSort (fun a b => decide (a.last ≤ b.last))).map
          (·.name)).Nodup := ((hperm.map (·.name)).nodup_iff).mpr hnd
      have hdisj : ∀ y ∈ (pool.mergeSort (fun a b => decide (a.last ≤ b.last))).drop
          (pool.length - m), y.name ∉ oldNames pool m := by
        intro y hy hc
        rw [← htd, List.map_append, List.nodup_append] at hnds
        rw [hold] at hc
        exact hnds.2.2 hc (List.mem_map.mpr ⟨y, hy, rfl⟩)
      have htake_nil : ((pool.mergeSort (fun a b => decide (a.last ≤ b.last))).take
          (pool.length - m)).filter (fun y => ! decide (y.name ∈ oldNames pool m)) = [] := by
        rw [List.filter_eq_nil_iff]
        intro a ha
        simp only [Bool.not_eq_true', decide_eq_false_iff_not, not_not]
        rw [hold]
        exact List.mem_map.mpr ⟨a, ha, rfl⟩
      have hdrop_self : ((pool.mergeSort (fun a b => decide (a.last ≤ b.last))).drop
          (pool.length - m)).filter (fun y => ! decide (y.name ∈ oldNames pool m))
          = (pool.mergeSort (fun a b => decide (a.last ≤ b.last))).drop
            (pool.length - m) := by
        rw [List.filter_eq_self]
        intro a ha
        simpa using hdisj a ha
      have hres : pool.filter (fun y => ! decide (y.name ∈ oldNames pool m)) |>.Perm
          ((pool.mergeSort (fun a b => decide (a.last ≤ b.last))).drop
            (pool.length - m)) := by
        have h1 := (hperm.symm).filter (fun y => ! decide (y.name ∈ oldNames pool m))
        rw [← htd, List.filter_append, htake_nil, hdrop_self, List.nil_append] at h1
        exact h1
      constructor
      · rw [hres.length_eq, List.length_drop, hperm.length_eq]
        omega
      · intro x hxr y hy hyn
        have hx_drop := hres.mem_iff.mp hxr
        have hy_sorted : y ∈ pool.mergeSort (fun a b => decide (a.last ≤ b.last)) :=
          hperm.mem_iff.mpr hy
        rw [← htd] at hy_sorted
        rcases List.mem_append.mp hy_sorted with hyt | hyd
        · rw [← htd, List.pairwise_append] at hsorted
          exact of_decide_eq_true (hsorted.2.2 y hyt x hx_drop)
        · exact absurd (hres.mem_iff.mpr hyd) hyn
    · rw [hclean, if_neg hm]
      refine ⟨by omega, ?_⟩
      intro x _ y hy hyn
      exact absurd hy hyn

/-- C4: Cache cleanup tri-criterion policy — a single cleanup pass applies
min_live → max_idle → max_cache: items whose idle time is not greater
than a set, nonzero `min_live_time` are protected from both later
criteria; among the remaining considered items, every item idle longer
than a set, nonzero `max_idle_time` is removed from the pool; and with only
`max_cache = m` set, cleanup retains exactly `min (len, m)` entries,
evicting oldest `last_access` first (every survivor is at least as recent
as every evictee).  Pool names are unique (`CachePool` is a map keyed by
name). -/
theorem cleanup_tri_criterion (pool : List PoolItem) (cfg : CacheCfg) (now : Int)
    (hnd : (pool.map (·.name)).Nodup) :
    (∀ x ∈ pool, ∀ t, cfg.minLive = some t → t ≠ 0 → now - x.last ≤ t →
      x ∈ cleanup pool cfg now) ∧
    (∀ x ∈ pool, (∀ t, cfg.minLive = some t → t ≠ 0 → (t : Int) < now - x.last) →
      ∀ u, cfg.maxIdle = some u → u ≠ 0 → (u : Int) < now - x.last →
        x ∉ cleanup pool cfg now) ∧
    (∀ m, cfg = ⟨some m, none, none⟩ →
      (cleanup pool cfg now).length = min pool.length m ∧
      ∀ x ∈ cleanup pool cfg now, ∀ y ∈ pool, y ∉ cleanup pool cfg now →
        y.last ≤ x.last) := by
  refine ⟨?_, ?_, ?_⟩
  · intro x hx t hml ht hfresh
    exact cleanup_protects hnd hx hml ht hfresh
  · intro x hx hml u hmi hu hidle
    exact cleanup_removes_idle hx hml hmi hu hidle
  · intro m hcfg
    subst hcfg
    exact cleanup_max_cache hnd m

/-- Witness for C4 at the concrete pool `[⟨1, 10⟩, ⟨2, 30⟩, ⟨3, 20⟩]` with
`max_cache = 2`. -/
theorem cleanup_tri_criterion_witness :
    (([⟨1, 10⟩, ⟨2, 30⟩, ⟨3, 20⟩] : List PoolItem).map (·.name)).Nodup ∧
      (cleanup [⟨1, 10⟩, ⟨2, 30⟩, ⟨3, 20⟩] ⟨some 2, none, none⟩ 100).length
        = min ([⟨1, 10⟩, ⟨2, 30⟩, ⟨3, 20⟩] : List PoolItem).length 2 :=
  ⟨by decide,
    ((cleanup_tri_criterion [⟨1, 10⟩, ⟨2, 30⟩, ⟨3, 20⟩] ⟨some 2, none, none⟩ 100
      (by decide)).2.2 2 rfl).1⟩

/-- C2 (code bug): on the sorted store `exStore` the highest existing
ordinal for prefix 5 is 2, yet the probe's seek to `append_suffix(5, 0)`
lands after the whole duplicate group — `IDXComparator` sorts larger
ordinals first, so every stored `(5, ord ≥ 1)` entry precedes `(5, 0)` —
and examines `((7, 1) ↦ 102)`; its prefix differs, so `put_idx` assigns
ordinal 1, not `2 + 1`. -/
theorem probe_ord_divergence :
    List.Pairwise idxLt (exStore.map (·.1)) ∧
    ((5, 2) ∈ exStore.map (·.1)) ∧
    idxSeekFirst exStore (5, 0) = some ((7, 1), 102) ∧
    probe_ord exStore 5 = 1 ∧
    probe_ord exStore 5 ≠ 2 + 1 := by
  refine ⟨?_, ?_, ?_, ?_, ?_⟩ <;> decide

end Bufdb
